import Mathlib

/-!  Verification of the filesystem abstraction layer in fs.py.

The shallow embedding below translates the base classes FSBase, FSFileBase
and FSDirectoryBase into pure Lean functions.  Python strings are modelled
as lists of characters (`Str`).  The overridable backend hooks
(get_filelist, is_writeable, the stat fields, do_mkdir / do_rename /
do_delete, and the virtual can_delete of entries) are gathered into a
`Backend` record of pure functions, mirroring the FSNative-style subclass
overrides; FSNative.get_dir never fails and merely constructs a directory
object, so directory construction is modelled as always succeeding.
Mutable object state (the directory cache of the facade, the lazily
populated `_files` dictionary of each directory, and counters/logs that
witness hook invocations) is threaded explicitly through an `FSState`
value; Python exceptions are modelled with `Except`.  The recursive
ancestor walk of FSBase.dir is given explicit fuel; exhausting the fuel
yields `none`, success yields `some`.  -/

namespace Filer

/-- Python strings, as lists of characters. -/
abbrev Str := List Char

/-- FSBase.dirsep, the path separator. -/
def sep : Char := '/'

/-- FSNative.rootname: the name of the root directory. -/
def rootname : Str := [sep]

/-- FSBase.normalise_name: lower-case, the key for case-insensitive lookups. -/
def normalise_name (s : Str) : Str := s.map Char.toLower

/-- Python str.split on the separator: all groups between separators, empties kept. -/
def splitSep : Str → List Str
  | [] => [[]]
  | c :: rest =>
    match splitSep rest with
    | [] => [[]]
    | g :: gs => if c = sep then [] :: g :: gs else (c :: g) :: gs

/-- FSBase.split: the non-empty components of a path. -/
def split (f : Str) : List Str := (splitSep f).filter (fun p => p ≠ [])

/-- Python str.startswith: does the first string begin with the second? -/
def pyStartsWith : Str → Str → Bool
  | _, [] => true
  | [], _ :: _ => false
  | c :: cs, p :: ps => c == p && pyStartsWith cs ps

/-- Python sep.join of a list of strings. -/
def pyJoinList : List Str → Str
  | [] => []
  | [x] => x
  | x :: y :: rest => x ++ sep :: pyJoinList (y :: rest)

/-- The argument-expansion loop at the top of FSBase.join: any argument
containing the separator is replaced by its split components. -/
def expandArgs : List Str → List Str
  | [] => []
  | a :: rest => (if sep ∈ a then split a else [a]) ++ expandArgs rest

/-- FSBase.join: expand, join with the separator, prefix the root if absent. -/
def join (args : List Str) : Str :=
  let name := pyJoinList (expandArgs args)
  if pyStartsWith name rootname then name else rootname ++ name

/-- FSBase.dirandleafname: decompose a path into (dirname, leafname). -/
def dirandleafname (f : Str) : Str × Str :=
  match split f with
  | [] => (rootname, [])
  | [p] => ([], p)
  | p :: q :: rest =>
    (join ((p :: q :: rest).dropLast),
     (p :: q :: rest).getLast (List.cons_ne_nil p (q :: rest)))

/-- FSBase.dirname. -/
def dirname (f : Str) : Str := (dirandleafname f).1

/-- FSBase.leafname. -/
def leafname (f : Str) : Str := (dirandleafname f).2

/-- Python string less-than: lexicographic comparison by code point. -/
def pyStrLt : Str → Str → Bool
  | _, [] => false
  | [], _ :: _ => true
  | c1 :: r1, c2 :: r2 => if c1 < c2 then true else if c2 < c1 then false else pyStrLt r1 r2

/-- The error taxonomy of fs.py (subclasses of FSError). -/
inductive Err
  | NotFound
  | NotADirectory
  | ReadFailed
  | WriteFailed
  | MkDirFailed
  | DeleteFailed
  | RenameFailed
  deriving DecidableEq, Repr

/-- An FSFileBase object: identity plus the memoised stat metadata. -/
structure Entry where
  filename : Str
  dirname : Str
  leafname : Str
  sizeOpt : Option Int
  isdir : Bool
  deriving DecidableEq, Repr

/-- The overridable backend hooks of the class hierarchy, as pure functions.
`filelist` is get_filelist per directory name; `is_writeable` the
per-directory writability predicate; `stat_size`/`stat_isdir` the lazy stat
data per file name (`none` size models the base class's unset `_size`);
`file_can_delete` the virtual Entry.can_delete (the FSFileBase base
implementation is `fun _ => false`); the `do_*_ok` fields tell whether the
corresponding mutation hook succeeds or raises. -/
structure Backend where
  filelist : Str → List Str
  is_writeable : Str → Bool
  stat_size : Str → Option Int
  stat_isdir : Str → Bool
  file_can_delete : Str → Bool
  supports_mkdir : Bool
  supports_delete : Bool
  supports_rename : Bool
  do_mkdir_ok : Str → Str → Bool
  do_rename_ok : Str → Str → Str → Bool
  do_delete_ok : Str → Bool

/-- Construction of an FSFileBase/FSFileNative: derived dirname/leafname and
stat metadata. -/
def mkEntry (b : Backend) (filename : Str) : Entry :=
  { filename := filename
    dirname := (dirandleafname filename).1
    leafname := (dirandleafname filename).2
    sizeOpt := b.stat_size filename
    isdir := b.stat_isdir filename }

/-- FSFileBase.size: -1 when the size is unknown. -/
def entrySize (e : Entry) : Int :=
  match e.sizeOpt with
  | none => -1
  | some s => s

/-- The virtual Entry.can_delete, dispatched to the backend override. -/
def entryCanDelete (b : Backend) (e : Entry) : Bool := b.file_can_delete e.filename

/-- An FSDirectoryBase object: identity, canonical dirname, and the lazily
populated `_files` dictionary (`none` = unpopulated).  The dictionary is an
insertion-ordered association list keyed by normalised leafname, mirroring a
Python dict. -/
structure Container where
  uid : Nat
  dirname : Str
  files : Option (List (Str × Entry))
  deriving DecidableEq, Repr

/-- Python dict lookup on an insertion-ordered association list. -/
def assocLookup {α : Type} (k : Str) : List (Str × α) → Option α
  | [] => none
  | (k1, v) :: rest => if k1 = k then some v else assocLookup k rest

/-- Python dict store: overwrite in place (keeping the insertion position) or
append at the end. -/
def assocUpd {α : Type} (k : Str) (v : α) : List (Str × α) → List (Str × α)
  | [] => [(k, v)]
  | (k1, v1) :: rest => if k1 = k then (k, v) :: rest else (k1, v1) :: assocUpd k v rest

/-- The population loop of FSDirectoryBase.populate_files: wrap every raw
member name (get_file builds the entry for join(dirname, leaf)) and store it
under its normalised leafname. -/
def buildFiles (b : Backend) (dn : Str) : List (Str × Entry) :=
  (b.filelist dn).foldl
    (fun acc leaf =>
      let e := mkEntry b (join [dn, leaf])
      assocUpd (normalise_name e.leafname) e acc) []

/-- FSDirectoryBase.populate_files: populate only when unpopulated. -/
def populate (b : Backend) (c : Container) : Container :=
  match c.files with
  | some _ => c
  | none => { c with files := some (buildFiles b c.dirname) }

/-- FSDirectoryBase.invalidate: reset to unpopulated. -/
def invalidateC (c : Container) : Container := { c with files := none }

/-- The `_files` dictionary of a container, empty when unpopulated. -/
def filesOf (c : Container) : List (Str × Entry) :=
  match c.files with
  | some m => m
  | none => []

/-- Stable insertion into a sorted list: the new element goes after the
existing elements it does not strictly precede. -/
def sInsert {α : Type} (lt : α → α → Bool) (x : α) : List α → List α
  | [] => [x]
  | y :: ys => if lt y x then y :: sInsert lt x ys else x :: y :: ys

/-- Stable ascending sort (the semantics of Python's sorted). -/
def sSort {α : Type} (lt : α → α → Bool) : List α → List α
  | [] => []
  | x :: xs => sInsert lt x (sSort lt xs)

/-- Entry.__lt__: entries order by leafname. -/
def entLt (e1 e2 : Entry) : Bool := pyStrLt e1.leafname e2.leafname

/-- The `files` property: populate, then the values sorted by leafname. -/
def containerFilesList (b : Backend) (c : Container) : List Entry × Container :=
  (sSort entLt ((filesOf (populate b c)).map Prod.snd), populate b c)

/-- FSDirectoryBase.__getitem__ with a string: populate, then look up the
normalised leafname; FSFileNotFoundError when absent. -/
def containerGetName (b : Backend) (c : Container) (leaf : Str) :
    Except Err Entry × Container :=
  match assocLookup (normalise_name leaf) (filesOf (populate b c)) with
  | none => (Except.error Err.NotFound, populate b c)
  | some e => (Except.ok e, populate b c)

/-- Python list indexing with an int: non-negative indices from the front,
negative indices count from the end, IndexError (`none`) outside. -/
def pyListGet {α : Type} (l : List α) (i : Int) : Option α :=
  if 0 ≤ i then l.get? i.toNat
  else if 0 ≤ (l.length : Int) + i then l.get? ((l.length : Int) + i).toNat
  else none

/-- FSDirectoryBase.__getitem__ with an int: index into the files sorted by
leafname; FSFileNotFoundError on IndexError. -/
def containerGetIndex (b : Backend) (c : Container) (i : Int) :
    Except Err Entry × Container :=
  match pyListGet (sSort entLt (containerFilesList b c).1) i with
  | none => (Except.error Err.NotFound, (containerFilesList b c).2)
  | some e => (Except.ok e, (containerFilesList b c).2)

/-- FSDirectoryBase.__contains__: populate, then membership of the key. -/
def containerContains (b : Backend) (c : Container) (leaf : Str) : Bool × Container :=
  ((assocLookup (normalise_name leaf) (filesOf (populate b c))).isSome, populate b c)

/-- FSDirectoryBase.is_writeable, dispatched to the backend override. -/
def containerIsWriteable (b : Backend) (c : Container) : Bool :=
  b.is_writeable c.dirname

/-- FSDirectoryBase.can_mkdir: the global capability and then writability. -/
def containerCanMkdir (b : Backend) (c : Container) : Bool :=
  if !b.supports_mkdir then false else containerIsWriteable b c

/-- FSDirectoryBase.can_delete: global capability, writability, then the
looked-up entry's own can_delete; any lookup failure is swallowed as false. -/
def containerCanDelete (b : Backend) (c : Container) (leaf : Str) : Bool × Container :=
  if !b.supports_delete then (false, c)
  else if !containerIsWriteable b c then (false, c)
  else
    match containerGetName b c leaf with
    | (Except.error _, c1) => (false, c1)
    | (Except.ok e, c1) => (entryCanDelete b e, c1)

/-- Python truthiness of an optional string (None and the empty string are
falsy). -/
def optTruthy : Option Str → Bool
  | none => false
  | some d => !(d == [])

/-- The no-op test of FSDirectoryBase.can_rename: a truthy destination whose
normalised name equals the normalised source. -/
def noopCase (sl : Str) (dl : Option Str) : Bool :=
  optTruthy dl && (normalise_name sl == normalise_name (dl.getD []))

/-- FSDirectoryBase.can_rename: global capability, writability, the no-op
case, then source existence and destination non-existence, with any lookup
failure swallowed as false. -/
def containerCanRename (b : Backend) (c : Container) (sl : Str) (dl : Option Str) :
    Bool × Container :=
  if !b.supports_rename then (false, c)
  else if !containerIsWriteable b c then (false, c)
  else if noopCase sl dl then (true, c)
  else
    match containerGetName b c sl with
    | (Except.error _, c1) => (false, c1)
    | (Except.ok _, c1) =>
      if optTruthy dl && (assocLookup (normalise_name (dl.getD [])) (filesOf c1)).isSome
      then (false, c1)
      else (true, c1)

/-- FSDirectoryBase.mkdir: fail with WriteFailed when not writeable, invoke
the do_mkdir hook (recorded in the returned log), then invalidate.  Each
result carries the (possibly mutated) container. -/
def containerMkdir (b : Backend) (c : Container) (leaf : Str) :
    Except Err Unit × Container × List (Str × Str) :=
  if !containerIsWriteable b c then (Except.error Err.WriteFailed, c, [])
  else if b.do_mkdir_ok c.dirname leaf then
    (Except.ok (), invalidateC c, [(c.dirname, leaf)])
  else (Except.error Err.WriteFailed, c, [(c.dirname, leaf)])

/-- FSDirectoryBase.rename: no-op when the normalised names agree, then the
writability gate, source lookup (FSFileNotFoundError propagates), destination
collision check, the do_rename hook (recorded in the log), then invalidate. -/
def containerRename (b : Backend) (c : Container) (sl dl : Str) :
    Except Err Unit × Container × List (Str × Str × Str) :=
  if normalise_name sl = normalise_name dl then (Except.ok (), c, [])
  else if !containerIsWriteable b c then (Except.error Err.RenameFailed, c, [])
  else
    match containerGetName b c sl with
    | (Except.error e, c1) => (Except.error e, c1, [])
    | (Except.ok _, c1) =>
      if (assocLookup (normalise_name dl) (filesOf c1)).isSome then
        (Except.error Err.RenameFailed, c1, [])
      else if b.do_rename_ok c.dirname sl dl then
        (Except.ok (), invalidateC c1, [(c.dirname, sl, dl)])
      else (Except.error Err.RenameFailed, c1, [(c.dirname, sl, dl)])

/-- The mutable state of one FSBase facade: the directory cache (normalised
dirname to container), the uid supply for container identity, a counter of
get_dir constructions, and logs of the invoked mutation hooks. -/
structure FSState where
  cache : List (Str × Container)
  nextUid : Nat
  getDirCalls : Nat
  mkdirLog : List (Str × Str)
  renameLog : List (Str × Str × Str)
  deleteLog : List Str
  deriving DecidableEq, Repr

/-- A fresh facade state. -/
def initW : FSState :=
  { cache := [], nextUid := 0, getDirCalls := 0,
    mkdirLog := [], renameLog := [], deleteLog := [] }

/-- FSBase.dir with do_caching enabled: cache hit on the normalised name, or
recursive ancestor-first resolution followed by get_dir (FSNative.get_dir
constructs a fresh, unpopulated container) and the cache store.  The
recursion takes explicit fuel; `none` means the fuel ran out.
`fsDirFinish` is the tail of the cache-miss path: construct the fresh
container (get_dir), count the construction, and store it in the cache. -/
def fsDirFinish (dn : Str) (s1 : FSState) : Container × FSState :=
  ({ uid := s1.nextUid, dirname := dn, files := none },
   { s1 with nextUid := s1.nextUid + 1, getDirCalls := s1.getDirCalls + 1,
             cache := assocUpd (normalise_name dn)
                        { uid := s1.nextUid, dirname := dn, files := none } s1.cache })

def fsDir (b : Backend) : Nat → FSState → Str → Option (Container × FSState)
  | 0, _, _ => none
  | Nat.succ fuel, s, dn =>
    match assocLookup (normalise_name dn) s.cache with
    | some c => some (c, s)
    | none =>
      if dn ≠ dirname dn ∧ dn ≠ [] then
        match fsDir b fuel s (dirname dn) with
        | none => none
        | some (_, s1) => some (fsDirFinish dn s1)
      else some (fsDirFinish dn s)

/-- Write a mutated container back to its cache slot; in Python this is the
in-place aliasing of the cached directory object. -/
def writeback (s : FSState) (dn : Str) (c : Container) : FSState :=
  { s with cache := assocUpd (normalise_name dn) c s.cache }

/-- FSBase.fileinfo: decompose, answer rootinfo for the root itself, else
resolve the directory and look the leafname up in it. -/
def fsFileinfo (b : Backend) (fuel : Nat) (s : FSState) (f : Str) :
    Option (Except Err Entry × FSState) :=
  let dn := (dirandleafname f).1
  let ln := (dirandleafname f).2
  if dn = rootname ∧ ln = [] then some (Except.ok (mkEntry b rootname), s)
  else
    match fsDir b fuel s dn with
    | none => none
    | some (c, s1) =>
      let r := containerGetName b c ln
      some (r.1, writeback s1 dn r.2)

/-- FSBase.can_mkdir. -/
def fsCanMkdir (b : Backend) (fuel : Nat) (s : FSState) (dno : Option Str) :
    Option (Except Err Bool × FSState) :=
  match dno with
  | none => some (Except.ok b.supports_mkdir, s)
  | some dn =>
    if !b.supports_mkdir then some (Except.ok b.supports_mkdir, s)
    else
      match fsDir b fuel s dn with
      | none => none
      | some (c, s1) => some (Except.ok (containerCanMkdir b c), s1)

/-- FSBase.can_delete: with a filename it calls fileinfo, whose lookup
failure propagates out of the predicate. -/
def fsCanDelete (b : Backend) (fuel : Nat) (s : FSState) (fno : Option Str) :
    Option (Except Err Bool × FSState) :=
  match fno with
  | none => some (Except.ok b.supports_delete, s)
  | some f =>
    if !b.supports_delete then some (Except.ok b.supports_delete, s)
    else
      match fsFileinfo b fuel s f with
      | none => none
      | some (Except.error er, s1) => some (Except.error er, s1)
      | some (Except.ok fsfile, s1) => some (Except.ok (entryCanDelete b fsfile), s1)

/-- FSBase.can_rename: the facade gate.  Note that the same-directory test
compares the raw dirnames. -/
def fsCanRename (b : Backend) (fuel : Nat) (s : FSState) (srco dsto : Option Str) :
    Option (Except Err Bool × FSState) :=
  if !b.supports_rename then some (Except.ok false, s)
  else
    match srco with
    | none => some (Except.ok true, s)
    | some source =>
      let sd := (dirandleafname source).1
      let sl := (dirandleafname source).2
      match fsDir b fuel s sd with
      | none => none
      | some (sfsdir, s1) =>
        match dsto with
        | none =>
          let r := containerCanRename b sfsdir sl none
          some (Except.ok r.1, writeback s1 sd r.2)
        | some dest =>
          let dd := (dirandleafname dest).1
          let dl := (dirandleafname dest).2
          match fsDir b fuel s1 dd with
          | none => none
          | some (_, s2) =>
            if sd = dd then
              let r := containerCanRename b sfsdir sl (some dl)
              some (Except.ok r.1, writeback s2 sd r.2)
            else some (Except.ok false, s2)

/-- FSBase.mkdir: the capability gate, then resolution of the container for
the full requested path (the code resolves `dirname` itself, not its parent)
and delegation of mkdir with the leafname. -/
def fsMkdir (b : Backend) (fuel : Nat) (s : FSState) (dn : Str) :
    Option (Except Err Unit × FSState) :=
  if !b.supports_mkdir then some (Except.error Err.MkDirFailed, s)
  else
    match fsDir b fuel s dn with
    | none => none
    | some (c, s1) =>
      let r := containerMkdir b c (leafname dn)
      let s2 := writeback s1 dn r.2.1
      some (r.1, { s2 with mkdirLog := s2.mkdirLog ++ r.2.2 })

/-- FSBase.rename: the capability gate, then the within-directory branch when
the normalised dirnames agree, else RenameFailed for a cross-directory move. -/
def fsRename (b : Backend) (fuel : Nat) (s : FSState) (source dest : Str) :
    Option (Except Err Unit × FSState) :=
  if !b.supports_rename then some (Except.error Err.RenameFailed, s)
  else
    let sd := (dirandleafname source).1
    let sl := (dirandleafname source).2
    let dd := (dirandleafname dest).1
    let dl := (dirandleafname dest).2
    if normalise_name sd = normalise_name dd then
      match fsDir b fuel s sd with
      | none => none
      | some (c, s1) =>
        let r := containerRename b c sl dl
        let s2 := writeback s1 sd r.2.1
        some (r.1, { s2 with renameLog := s2.renameLog ++ r.2.2 })
    else some (Except.error Err.RenameFailed, s)

/-- FSFileBase.delete: re-check the virtual can_delete, invoke the do_delete
hook (recorded in the log), then `self.dir().invalidate()` —
FSFileBase.dir raises FSNotADirectoryError when the entry is not a
directory, and otherwise resolves the entry's own path. -/
def entryDelete (b : Backend) (fuel : Nat) (s : FSState) (e : Entry) :
    Option (Except Err Unit × FSState) :=
  if !entryCanDelete b e then some (Except.error Err.DeleteFailed, s)
  else
    let s1 := { s with deleteLog := s.deleteLog ++ [e.filename] }
    if !b.do_delete_ok e.filename then some (Except.error Err.DeleteFailed, s1)
    else if !e.isdir then some (Except.error Err.NotADirectory, s1)
    else
      match fsDir b fuel s1 e.filename with
      | none => none
      | some (c, s2) => some (Except.ok (), writeback s2 e.filename (invalidateC c))

/-- A concrete writable backend realising the spec scenario: the root
contains the directory A and the file b.txt of size 10, A contains the file
x; every directory is writeable, all capabilities are enabled, all hooks
succeed, and b.txt is deletable. -/
def wb : Backend :=
  { filelist := fun dn =>
      if dn = [] ∨ dn = rootname then ["A".data, "b.txt".data]
      else if dn = "/A".data then ["x".data]
      else []
    is_writeable := fun _ => true
    stat_size := fun f =>
      if f = "/b.txt".data then some 10
      else if f = "/A/x".data then some 3
      else none
    stat_isdir := fun f => f == "/A".data
    file_can_delete := fun f => f == "/b.txt".data
    supports_mkdir := true
    supports_delete := true
    supports_rename := true
    do_mkdir_ok := fun _ _ => true
    do_rename_ok := fun _ _ _ => true
    do_delete_ok := fun _ => true }

/-- An unpopulated container for the root directory of `wb`, as constructed
by resolving the empty dirname. -/
def rootC : Container := { uid := 0, dirname := [], files := none }

/-- The populated root container of `wb`. -/
def rootCP : Container := { uid := 0, dirname := [], files := some (buildFiles wb []) }

/-- Ascending sortedness for a strict comparison: no adjacent pair is inverted. -/
def sortedB {α : Type} (lt : α → α → Bool) : List α → Bool
  | [] => true
  | [_] => true
  | x :: y :: r => !lt y x && sortedB lt (y :: r)

/-- Whether an Except value is a success. -/
def exceptIsOk {α : Type} : Except Err α → Bool
  | Except.ok _ => true
  | Except.error _ => false

instance exceptDecEq {ε α : Type} [DecidableEq ε] [DecidableEq α] :
    DecidableEq (Except ε α) := fun x y =>
  match x, y with
  | Except.ok a, Except.ok b =>
    if h : a = b then isTrue (by rw [h]) else isFalse (fun hc => h (Except.ok.inj hc))
  | Except.error a, Except.error b =>
    if h : a = b then isTrue (by rw [h]) else isFalse (fun hc => h (Except.error.inj hc))
  | Except.ok _, Except.error _ => isFalse (fun hc => Except.noConfusion hc)
  | Except.error _, Except.ok _ => isFalse (fun hc => Except.noConfusion hc)

/-! Lemmas about the path model. -/

theorem splitSep_ne_nil (l : Str) : splitSep l ≠ [] := by
  cases l with
  | nil => simp [splitSep]
  | cons c rest =>
    unfold splitSep
    cases h : splitSep rest with
    | nil => simp
    | cons g gs => by_cases hc : c = sep <;> simp [hc]

theorem splitSep_sep_cons (l : Str) : splitSep (sep :: l) = [] :: splitSep l := by
  cases hh : splitSep l with
  | nil => exact absurd hh (splitSep_ne_nil l)
  | cons g gs =>
    unfold splitSep
    rw [hh]
    simp

theorem splitSep_append_noSep (p l g : Str) (gs : List Str)
    (hp : sep ∉ p) (h : splitSep l = g :: gs) :
    splitSep (p ++ l) = (p ++ g) :: gs := by
  induction p with
  | nil => simpa using h
  | cons c p1 ih =>
    have hc : ¬ (c = sep) := fun hEq => hp (hEq ▸ List.mem_cons_self c p1)
    have ih1 := ih (fun hm => hp (List.mem_cons_of_mem c hm))
    simp only [List.cons_append]
    unfold splitSep
    rw [ih1]
    simp [hc]

theorem splitSep_noSep (p : Str) (hp : sep ∉ p) : splitSep p = [p] := by
  have h := splitSep_append_noSep p [] [] [] hp (by simp [splitSep])
  simpa using h

theorem split_sep_cons (l : Str) : split (sep :: l) = split l := by
  simp [split, splitSep_sep_cons]

theorem split_noSep (p : Str) (hne : p ≠ []) (hp : sep ∉ p) : split p = [p] := by
  simp [split, splitSep_noSep p hp, hne]

theorem split_append_sep (p x : Str) (hp1 : p ≠ []) (hp2 : sep ∉ p) :
    split (p ++ sep :: x) = p :: split x := by
  have h1 : splitSep (p ++ sep :: x) = (p ++ []) :: splitSep x :=
    splitSep_append_noSep p (sep :: x) [] (splitSep x) hp2 (splitSep_sep_cons x)
  simp only [split, h1, List.append_nil]
  simp [List.filter_cons, hp1]

theorem split_pyJoinList (ps : List Str)
    (h : ∀ p ∈ ps, p ≠ [] ∧ sep ∉ p) : split (pyJoinList ps) = ps := by
  induction ps with
  | nil => simp [pyJoinList, split, splitSep]
  | cons p rest ih =>
    cases rest with
    | nil =>
      have hp := h p (List.mem_cons_self p [])
      simpa [pyJoinList] using split_noSep p hp.1 hp.2
    | cons q rest1 =>
      have hp := h p (List.mem_cons_self p (q :: rest1))
      have ihr := ih (fun x hx => h x (List.mem_cons_of_mem p hx))
      show split (p ++ sep :: pyJoinList (q :: rest1)) = p :: q :: rest1
      rw [split_append_sep p _ hp.1 hp.2, ihr]

theorem expandArgs_noSep (args : List Str) (h : ∀ a ∈ args, sep ∉ a) :
    expandArgs args = args := by
  induction args with
  | nil => rfl
  | cons a rest ih =>
    have ha : ¬ (sep ∈ a) := h a (List.mem_cons_self a rest)
    have hr := ih (fun x hx => h x (List.mem_cons_of_mem a hx))
    simp [expandArgs, ha, hr]

theorem pyStartsWith_append (p t : Str) : pyStartsWith (p ++ t) p = true := by
  induction p with
  | nil => cases t <;> rfl
  | cons c p1 ih => simp [pyStartsWith, ih]

theorem pyStartsWith_root_of_head_ne (p t : Str) (hne : p ≠ []) (hp : sep ∉ p) :
    pyStartsWith (p ++ t) rootname = false := by
  cases p with
  | nil => exact absurd rfl hne
  | cons c p1 =>
    have hc : ¬ (c = sep) := fun hEq => hp (hEq ▸ List.mem_cons_self c p1)
    simp [pyStartsWith, rootname, hc]

theorem pyJoinList_cons_ne (p : Str) (rest : List Str) (h : rest ≠ []) :
    pyJoinList (p :: rest) = p ++ sep :: pyJoinList rest := by
  cases rest with
  | nil => exact absurd rfl h
  | cons q r1 => rfl

theorem pyStartsWith_head_ne_root (ps : List Str) (p : Str) (hp1 : p ≠ [])
    (hp2 : sep ∉ p) : pyStartsWith (pyJoinList (p :: ps)) rootname = false := by
  cases ps with
  | nil => simpa [pyJoinList] using pyStartsWith_root_of_head_ne p [] hp1 hp2
  | cons q r1 =>
    simpa [pyJoinList] using
      pyStartsWith_root_of_head_ne p (sep :: pyJoinList (q :: r1)) hp1 hp2

theorem join_eq_root_append (args : List Str)
    (hstart : pyStartsWith (pyJoinList (expandArgs args)) rootname = false) :
    join args = rootname ++ pyJoinList (expandArgs args) := by
  unfold join
  simp [hstart]

theorem join_eq_self_of_started (args : List Str)
    (hstart : pyStartsWith (pyJoinList (expandArgs args)) rootname = true) :
    join args = pyJoinList (expandArgs args) := by
  unfold join
  simp [hstart]

theorem join_of_parts (ps : List Str) (hne : ps ≠ [])
    (h : ∀ p ∈ ps, p ≠ [] ∧ sep ∉ p) :
    join ps = sep :: pyJoinList ps := by
  have hexp : expandArgs ps = ps := expandArgs_noSep ps (fun a ha => (h a ha).2)
  cases ps with
  | nil => exact absurd rfl hne
  | cons p rest =>
    have hp := h p (List.mem_cons_self p rest)
    have hstart : pyStartsWith (pyJoinList (p :: rest)) rootname = false :=
      pyStartsWith_head_ne_root rest p hp.1 hp.2
    calc join (p :: rest)
        = rootname ++ pyJoinList (expandArgs (p :: rest)) :=
          join_eq_root_append (p :: rest) (by rw [hexp]; exact hstart)
      _ = sep :: pyJoinList (p :: rest) := by rw [hexp]; rfl

theorem join_startsWith_root (args : List Str) :
    pyStartsWith (join args) rootname = true := by
  unfold join
  by_cases h : pyStartsWith (pyJoinList (expandArgs args)) rootname = true
  · simpa [h] using h
  · simp only [h, Bool.false_eq_true, if_false]
    exact pyStartsWith_append rootname (pyJoinList (expandArgs args))

theorem dirandleafname_nil_parts (f : Str) (h : split f = []) :
    dirandleafname f = (rootname, []) := by
  unfold dirandleafname
  rw [h]

theorem dirandleafname_single (f p : Str) (h : split f = [p]) :
    dirandleafname f = ([], p) := by
  unfold dirandleafname
  rw [h]

theorem dirandleafname_cons_cons (f p q : Str) (r1 : List Str)
    (h : split f = p :: q :: r1) :
    dirandleafname f = (join ((p :: q :: r1).dropLast),
                        (p :: q :: r1).getLast (List.cons_ne_nil p (q :: r1))) := by
  unfold dirandleafname
  rw [h]

theorem dirname_root_or_empty (p : Str) :
    pyStartsWith (dirname p) rootname = true ∨ dirname p = [] := by
  unfold dirname
  cases h : split p with
  | nil =>
    left
    rw [dirandleafname_nil_parts p h]
    simp [rootname, pyStartsWith]
  | cons a rest =>
    cases rest with
    | nil =>
      right
      rw [dirandleafname_single p a h]
    | cons q r1 =>
      left
      rw [dirandleafname_cons_cons p a q r1 h]
      exact join_startsWith_root _

/-- C6: every string returned by `join` begins with the root marker; a
dirname returned by `dirandleafname` begins with the root marker except for
single-component paths, where the code returns the empty string instead
(this is the amended form: the claim as stated, that every dirname begins
with the root marker, is refuted by `C6_counterexample`). -/
theorem C6_join_dirname_root :
    (∀ args : List Str, pyStartsWith (join args) rootname = true) ∧
    (∀ p : Str, pyStartsWith (dirname p) rootname = true ∨ dirname p = []) :=
  ⟨join_startsWith_root, dirname_root_or_empty⟩

/-- C6 counterexample: the dirname of the root-level path "/b.txt" is the
empty string, which does not begin with the root marker. -/
theorem C6_counterexample :
    pyStartsWith (dirname ("/b.txt".data)) rootname = false := by decide

/-- C7 (amended): the dirname/leafname round trip through `join` holds for a
valid dirname that is either the empty string or a root-prefixed join of at
least one component, with a non-empty separator-free leaf; the bare root
marker itself is excluded (see `C7_counterexample`). -/
theorem C7_roundtrip_amended :
    (∀ (ps : List Str) (l : Str), ps ≠ [] → (∀ p ∈ ps, p ≠ [] ∧ sep ∉ p) →
       l ≠ [] → sep ∉ l →
       dirname (join [join ps, l]) = join ps ∧ leafname (join [join ps, l]) = l) ∧
    (∀ l : Str, l ≠ [] → sep ∉ l →
       dirname (join [[], l]) = [] ∧ leafname (join [[], l]) = l) := by
  constructor
  · intro ps l hne h hl1 hl2
    have hd : join ps = sep :: pyJoinList ps := join_of_parts ps hne h
    have hsplitd : split (join ps) = ps := by
      rw [hd, split_sep_cons]
      exact split_pyJoinList ps h
    have hall : ∀ p ∈ ps ++ [l], p ≠ [] ∧ sep ∉ p := by
      intro x hx
      rcases List.mem_append.mp hx with hx1 | hx2
      · exact h x hx1
      · rcases List.mem_singleton.mp hx2 with rfl
        exact ⟨hl1, hl2⟩
    have hmemd : sep ∈ join ps := by rw [hd]; exact List.mem_cons_self sep _
    have hlmem : ¬ (sep ∈ l) := hl2
    have hexp : expandArgs [join ps, l] = ps ++ [l] := by
      simp [expandArgs, hmemd, hlmem, hsplitd]
    cases ps with
    | nil => exact absurd rfl hne
    | cons p rest =>
      have hp := h p (List.mem_cons_self p rest)
      have hjoin2 : join [join (p :: rest), l] = sep :: pyJoinList ((p :: rest) ++ [l]) := by
        have hstart : pyStartsWith (pyJoinList ((p :: rest) ++ [l])) rootname = false := by
          rw [List.cons_append]
          exact pyStartsWith_head_ne_root (rest ++ [l]) p hp.1 hp.2
        calc join [join (p :: rest), l]
            = rootname ++ pyJoinList (expandArgs [join (p :: rest), l]) :=
              join_eq_root_append _ (by rw [hexp]; exact hstart)
          _ = sep :: pyJoinList ((p :: rest) ++ [l]) := by rw [hexp]; rfl
      have hsplit2 : split (join [join (p :: rest), l]) = (p :: rest) ++ [l] := by
        rw [hjoin2, split_sep_cons]
        exact split_pyJoinList _ hall
      cases hrl : rest ++ [l] with
      | nil => exact absurd hrl (by simp)
      | cons q r1 =>
        have hsplit3 : split (join [join (p :: rest), l]) = p :: q :: r1 := by
          rw [hsplit2, List.cons_append, hrl]
        have hform : p :: q :: r1 = (p :: rest) ++ [l] := by
          rw [List.cons_append, hrl]
        have hdl := dirandleafname_cons_cons (join [join (p :: rest), l]) p q r1 hsplit3
        constructor
        · show (dirandleafname (join [join (p :: rest), l])).1 = join (p :: rest)
          rw [hdl]
          show join ((p :: q :: r1).dropLast) = join (p :: rest)
          rw [show (p :: q :: r1).dropLast = p :: rest by
            rw [hform]; exact List.dropLast_concat]
        · show (dirandleafname (join [join (p :: rest), l])).2 = l
          rw [hdl]
          show (p :: q :: r1).getLast (List.cons_ne_nil p (q :: r1)) = l
          have h5 : (p :: q :: r1).getLast? = some l := by
            rw [hform]
            exact List.getLast?_concat (p :: rest)
          have h6 : (p :: q :: r1).getLast? =
              some ((p :: q :: r1).getLast (List.cons_ne_nil p (q :: r1))) :=
            List.getLast?_eq_getLast (p :: q :: r1) (List.cons_ne_nil p (q :: r1))
          exact Option.some.inj (h6.symm.trans h5)
  · intro l hl1 hl2
    have h2 : pyJoinList [([] : Str), l] = sep :: l := by simp [pyJoinList]
    have hexp0 : expandArgs [([] : Str), l] = [[], l] := by
      simp [expandArgs, hl2]
    have h1 : join [[], l] = sep :: l := by
      have hstart : pyStartsWith (pyJoinList (expandArgs [([] : Str), l])) rootname = true := by
        rw [hexp0, h2]
        simp [pyStartsWith, rootname]
      calc join [[], l]
          = pyJoinList (expandArgs [([] : Str), l]) := join_eq_self_of_started _ hstart
        _ = sep :: l := by rw [hexp0, h2]
    rw [h1]
    have hsp : split (sep :: l) = [l] := by
      rw [split_sep_cons]
      exact split_noSep l hl1 hl2
    have hdl := dirandleafname_single (sep :: l) l hsp
    constructor
    · show (dirandleafname (sep :: l)).1 = []
      rw [hdl]
    · show (dirandleafname (sep :: l)).2 = l
      rw [hdl]

/-- C7 counterexample: for the root marker itself as the dirname, the round
trip fails — dirname(join("/", "b.txt")) is the empty string, not "/". -/
theorem C7_counterexample :
    (dirname (join [rootname, "b.txt".data]) == rootname) = false ∧
    leafname (join [rootname, "b.txt".data]) = "b.txt".data := by
  refine ⟨by decide, by decide⟩

/-- C7 witness: the amended round trip at the concrete dirname "/A" and leaf
"b.txt". -/
theorem C7_witness :
    dirname (join [join ["A".data], "b.txt".data]) = join ["A".data] ∧
    leafname (join [join ["A".data], "b.txt".data]) = "b.txt".data :=
  C7_roundtrip_amended.1 ["A".data] ("b.txt".data)
    (by decide) (by decide) (by decide) (by decide)

/-! Lemmas about sorting, dictionaries and the directory cache. -/

theorem pyStrLt_asymm (a2 : Str) : ∀ b2 : Str, pyStrLt a2 b2 = true → pyStrLt b2 a2 = false := by
  induction a2 with
  | nil =>
    intro b2 h
    cases b2 with
    | nil => simp [pyStrLt] at h
    | cons c r => simp [pyStrLt]
  | cons c1 r1 ih =>
    intro b2 h
    cases b2 with
    | nil => simp [pyStrLt] at h
    | cons c2 r2 =>
      simp only [pyStrLt] at h ⊢
      by_cases h12 : c1 < c2
      · have h21 : ¬ c2 < c1 := lt_asymm h12
        simp [h12, h21]
      · by_cases h21 : c2 < c1
        · simp [h12, h21] at h
        · simp only [h12, h21, if_false] at h ⊢
          exact ih r2 h

theorem entLt_asymm (e1 e2 : Entry) (h : entLt e1 e2 = true) : entLt e2 e1 = false :=
  pyStrLt_asymm e1.leafname e2.leafname h

theorem sortedB_tail {α : Type} (lt : α → α → Bool) (y : α) (r : List α)
    (h : sortedB lt (y :: r) = true) : sortedB lt r = true := by
  cases r with
  | nil => rfl
  | cons z zs =>
    simp only [sortedB, Bool.and_eq_true] at h
    exact h.2

theorem sortedB_head {α : Type} (lt : α → α → Bool) (x y : α) (r : List α)
    (h : sortedB lt (x :: y :: r) = true) : lt y x = false := by
  simp only [sortedB, Bool.and_eq_true] at h
  simpa using h.1

theorem sInsert_sortedB {α : Type} (lt : α → α → Bool)
    (hasym : ∀ u v, lt u v = true → lt v u = false) (x : α) :
    ∀ l : List α, sortedB lt l = true → sortedB lt (sInsert lt x l) = true := by
  intro l
  induction l with
  | nil => intro _; simp [sInsert, sortedB]
  | cons y ys ih =>
    intro hs
    by_cases hyx : lt y x = true
    · have hys : sortedB lt ys = true := sortedB_tail lt y ys hs
      have hrec := ih hys
      cases ys with
      | nil => simp [sInsert, hyx, sortedB, hasym y x hyx]
      | cons z zs =>
        by_cases hzx : lt z x = true
        · have h1 : lt z y = false := sortedB_head lt y z zs hs
          have hrec2 : sortedB lt (z :: sInsert lt x zs) = true := by
            simpa [sInsert, hzx] using hrec
          simp [sInsert, hyx, hzx, sortedB, h1, hrec2]
        · have hzx2 : lt z x = false := by
            cases hlzx : lt z x with
            | false => rfl
            | true => exact absurd hlzx hzx
          have hxy : lt x y = false := hasym y x hyx
          have hzzs : sortedB lt (z :: zs) = true := sortedB_tail lt y (z :: zs) hs
          simp [sInsert, hyx, hzx2, sortedB, hxy, hzzs]
    · have hyx2 : lt y x = false := by
        cases hl : lt y x with
        | false => rfl
        | true => exact absurd hl hyx
      simp [sInsert, hyx2, sortedB, hs]

theorem sSort_sortedB {α : Type} (lt : α → α → Bool)
    (hasym : ∀ u v, lt u v = true → lt v u = false) :
    ∀ l : List α, sortedB lt (sSort lt l) = true := by
  intro l
  induction l with
  | nil => rfl
  | cons x xs ih =>
    show sortedB lt (sInsert lt x (sSort lt xs)) = true
    exact sInsert_sortedB lt hasym x (sSort lt xs) ih

theorem sSort_of_sortedB {α : Type} (lt : α → α → Bool) :
    ∀ l : List α, sortedB lt l = true → sSort lt l = l := by
  intro l
  induction l with
  | nil => intro _; rfl
  | cons x xs ih =>
    intro hs
    cases xs with
    | nil => simp [sSort, sInsert]
    | cons y ys =>
      have h1 : lt y x = false := sortedB_head lt x y ys hs
      have h2 := sortedB_tail lt x (y :: ys) hs
      have ih2 := ih h2
      show sInsert lt x (sSort lt (y :: ys)) = x :: y :: ys
      rw [ih2]
      simp [sInsert, h1]

theorem sSort_idem {α : Type} (lt : α → α → Bool)
    (hasym : ∀ u v, lt u v = true → lt v u = false) (l : List α) :
    sSort lt (sSort lt l) = sSort lt l :=
  sSort_of_sortedB lt (sSort lt l) (sSort_sortedB lt hasym l)

theorem assocLookup_upd {α : Type} (k : Str) (v : α) :
    ∀ l : List (Str × α), assocLookup k (assocUpd k v l) = some v := by
  intro l
  induction l with
  | nil => simp [assocUpd, assocLookup]
  | cons kv rest ih =>
    obtain ⟨k1, v1⟩ := kv
    by_cases hk : k1 = k
    · simp [assocUpd, hk, assocLookup]
    · simp [assocUpd, hk, assocLookup, ih]

theorem populate_of_populated (b : Backend) (c : Container) (m : List (Str × Entry))
    (h : c.files = some m) : populate b c = c := by
  simp [populate, h]

theorem containerGetName_snd (b : Backend) (c : Container) (leaf : Str) :
    (containerGetName b c leaf).2 = populate b c := by
  unfold containerGetName
  cases h : assocLookup (normalise_name leaf) (filesOf (populate b c)) <;> simp [h]

theorem fsDir_cache (b : Backend) (fuel : Nat) (s : FSState) (dn : Str)
    (c : Container) (s1 : FSState) (h : fsDir b fuel s dn = some (c, s1)) :
    assocLookup (normalise_name dn) s1.cache = some c := by
  cases fuel with
  | zero => simp [fsDir] at h
  | succ f =>
    unfold fsDir at h
    cases hl : assocLookup (normalise_name dn) s.cache with
    | some c0 =>
      simp only [hl, Option.some.injEq, Prod.mk.injEq] at h
      rw [← h.2, ← h.1]
      exact hl
    | none =>
      simp only [hl] at h
      by_cases hcond : dn ≠ dirname dn ∧ dn ≠ []
      · rw [if_pos hcond] at h
        cases hr : fsDir b f s (dirname dn) with
        | none => rw [hr] at h; simp at h
        | some pr =>
          rw [hr] at h
          simp only [Option.some.injEq] at h
          have hc : c = (fsDirFinish dn pr.2).1 := by rw [h]
          have hs : s1 = (fsDirFinish dn pr.2).2 := by rw [h]
          rw [hc, hs]
          simp [fsDirFinish, assocLookup_upd]
      · rw [if_neg hcond] at h
        simp only [Option.some.injEq] at h
        have hc : c = (fsDirFinish dn s).1 := by rw [h]
        have hs : s1 = (fsDirFinish dn s).2 := by rw [h]
        rw [hc, hs]
        simp [fsDirFinish, assocLookup_upd]

/-- C9: with caching enabled, resolving the same directory path again after a
successful resolution returns the identical cached container and leaves the
state (in particular the get_dir construction counter) unchanged. -/
theorem C9_cached_resolution (b : Backend) (fuel fuel2 : Nat) (s : FSState)
    (dn : Str) (c : Container) (s1 : FSState)
    (h : fsDir b fuel s dn = some (c, s1)) :
    fsDir b (fuel2 + 1) s1 dn = some (c, s1) ∧
    (fsDir b (fuel2 + 1) s1 dn).map (fun p => p.2.getDirCalls) = some s1.getDirCalls := by
  have hc := fsDir_cache b fuel s dn c s1 h
  have h2 : fsDir b (Nat.succ fuel2) s1 dn = some (c, s1) := by
    unfold fsDir
    simp only [hc]
  exact ⟨h2, by rw [show fuel2 + 1 = Nat.succ fuel2 from rfl, h2]; rfl⟩

/-- C9 witness: resolving "/A" twice in a row on the concrete backend gives
the same container-state pair as resolving it once. -/
theorem C9_witness :
    (fsDir wb 5 initW ("/A".data)).bind (fun p => fsDir wb 5 p.2 ("/A".data)) =
      fsDir wb 5 initW ("/A".data) := by
  cases hm : fsDir wb 5 initW ("/A".data) with
  | none => rfl
  | some p =>
    have h2 := (C9_cached_resolution wb 5 4 initW ("/A".data) p.1 p.2 (by rw [hm])).1
    show fsDir wb 5 p.2 ("/A".data) = some p
    exact h2

/-- C4: failed mutating operations leave population state unchanged — a
failing Container.mkdir returns the container untouched, a failing
Container.rename preserves an already-populated files dictionary (so after a
destination collision the prior listing is still cached), and a failing
Entry.delete leaves the whole directory cache of the facade unchanged. -/
theorem C4_failed_mutations_preserve_population :
    (∀ (b : Backend) (c : Container) (leaf : Str) (er : Err),
       (containerMkdir b c leaf).1 = Except.error er →
       (containerMkdir b c leaf).2.1 = c) ∧
    (∀ (b : Backend) (c : Container) (sl dl : Str) (er : Err) (m : List (Str × Entry)),
       (containerRename b c sl dl).1 = Except.error er → c.files = some m →
       (containerRename b c sl dl).2.1.files = some m) ∧
    (∀ (b : Backend) (fuel : Nat) (s : FSState) (e : Entry) (er : Err) (s1 : FSState),
       entryDelete b fuel s e = some (Except.error er, s1) → s1.cache = s.cache) := by
  refine ⟨?_, ?_, ?_⟩
  · intro b c leaf er h
    cases hw : containerIsWriteable b c with
    | false => simp [containerMkdir, hw]
    | true =>
      cases hk : b.do_mkdir_ok c.dirname leaf with
      | true => simp [containerMkdir, hw, hk] at h
      | false => simp [containerMkdir, hw, hk]
  · intro b c sl dl er m h hm
    by_cases hno : normalise_name sl = normalise_name dl
    · simp [containerRename, hno] at h
    · cases hw : containerIsWriteable b c with
      | false => simp [containerRename, hno, hw, hm]
      | true =>
        have hpop : populate b c = c := populate_of_populated b c m hm
        have hsnd := containerGetName_snd b c sl
        cases hg : containerGetName b c sl with
        | mk r c1 =>
          have hc1 : c1 = c := by
            rw [hg] at hsnd
            simpa [hpop] using hsnd
          subst hc1
          cases r with
          | error e0 => simp [containerRename, hno, hw, hg, hm]
          | ok ent =>
            cases hd : (assocLookup (normalise_name dl) (filesOf c1)).isSome with
            | true => simp [containerRename, hno, hw, hg, hd, hm]
            | false =>
              cases hk : b.do_rename_ok c1.dirname sl dl with
              | true => simp [containerRename, hno, hw, hg, hd, hk] at h
              | false => simp [containerRename, hno, hw, hg, hd, hk, hm]
  · intro b fuel s e er s1 h
    cases hcd : entryCanDelete b e with
    | false =>
      simp [entryDelete, hcd] at h
      rw [← h.2]
    | true =>
      cases hk : b.do_delete_ok e.filename with
      | false =>
        simp [entryDelete, hcd, hk] at h
        rw [← h.2]
      | true =>
        cases hi : e.isdir with
        | false =>
          simp [entryDelete, hcd, hk, hi] at h
          rw [← h.2]
        | true =>
          cases hr : fsDir b fuel { s with deleteLog := s.deleteLog ++ [e.filename] }
              e.filename with
          | none => simp [entryDelete, hcd, hk, hi, hr] at h
          | some pr => simp [entryDelete, hcd, hk, hi, hr] at h

/-- C4 witness: renaming "b.txt" onto the existing name "A" in the populated
root container fails with RenameFailed and the files dictionary keeps its
prior contents. -/
theorem C4_witness :
    (containerRename wb rootCP ("b.txt".data) ("A".data)).1 =
        Except.error Err.RenameFailed ∧
    (containerRename wb rootCP ("b.txt".data) ("A".data)).2.1.files =
        some (buildFiles wb []) :=
  ⟨by decide,
   C4_failed_mutations_preserve_population.2.1 wb rootCP ("b.txt".data) ("A".data)
     Err.RenameFailed (buildFiles wb []) (by decide) (by decide)⟩

/-- C8 (amended): integer indexing into a container returns the i-th entry of
the leafname-sorted listing for 0 <= i < n and fails with NotFound for i >= n
and for i < -n; but, as in Python, a negative index -n <= i < 0 returns the
entry at position n + i instead of failing (the claim as stated, that every
negative index fails, is refuted by `C8_counterexample`). -/
theorem C8_index_amended (b : Backend) (c : Container) (i : Int) :
    (∀ e : Entry, 0 ≤ i →
       (containerFilesList b c).1.get? i.toNat = some e →
       (containerGetIndex b c i).1 = Except.ok e) ∧
    (((containerFilesList b c).1.length : Int) ≤ i ∨
        i < -((containerFilesList b c).1.length : Int) →
       (containerGetIndex b c i).1 = Except.error Err.NotFound) ∧
    (∀ e : Entry, i < 0 → -((containerFilesList b c).1.length : Int) ≤ i →
       (containerFilesList b c).1.get?
           (((containerFilesList b c).1.length : Int) + i).toNat = some e →
       (containerGetIndex b c i).1 = Except.ok e) := by
  have hidem : sSort entLt (containerFilesList b c).1 = (containerFilesList b c).1 :=
    sSort_idem entLt entLt_asymm ((filesOf (populate b c)).map Prod.snd)
  refine ⟨?_, ?_, ?_⟩
  · intro e hi hget
    have hp : pyListGet (sSort entLt (containerFilesList b c).1) i = some e := by
      rw [hidem]
      unfold pyListGet
      rw [if_pos hi, hget]
    unfold containerGetIndex
    rw [hp]
  · intro hrange
    have hp : pyListGet (sSort entLt (containerFilesList b c).1) i = none := by
      rw [hidem]
      unfold pyListGet
      rcases hrange with h1 | h2
      · rw [if_pos (by omega)]
        exact List.get?_eq_none.mpr (by omega)
      · rw [if_neg (by omega), if_neg (by omega)]
    unfold containerGetIndex
    rw [hp]
  · intro e hi hlow hget
    have hp : pyListGet (sSort entLt (containerFilesList b c).1) i = some e := by
      rw [hidem]
      unfold pyListGet
      rw [if_neg (by omega), if_pos (by omega), hget]
    unfold containerGetIndex
    rw [hp]

/-- C8 witness: index 0 of the populated root returns the entry for "/A", the
first element of the leafname-sorted listing. -/
theorem C8_witness :
    (0 : Int) ≤ 0 ∧ (containerGetIndex wb rootC 0).1 = Except.ok (mkEntry wb ("/A".data)) :=
  ⟨by decide,
   (C8_index_amended wb rootC 0).1 (mkEntry wb ("/A".data)) (by decide) (by decide)⟩

/-- C8 counterexample: on the two-entry root, index -1 does not fail with
NotFound — it returns the last entry ("/b.txt"), Python-style. -/
theorem C8_counterexample :
    (containerGetIndex wb rootC (-1)).1 = Except.ok (mkEntry wb ("/b.txt".data)) ∧
    ((containerGetIndex wb rootC (-1)).1 == Except.error Err.NotFound) = false := by
  refine ⟨by decide, by decide⟩

/-- C1: evaluating FSBase.mkdir at "/newdir" on a fully-writable backend
shows the code resolving the container for the full path "/newdir" itself
and invoking the do_mkdir hook there with leaf "newdir" — the hook log
records the pair ("/newdir", "newdir") — although the parent directory of
"/newdir" is dirname("/newdir") = "" (the two differ), so the backend is
asked to create "newdir" inside "/newdir", not inside its parent. -/
theorem C1_mkdir_resolves_full_path :
    ((fsMkdir wb 5 initW ("/newdir".data)).map (fun p => (p.1, p.2.mkdirLog)) =
       some (Except.ok (), [("/newdir".data, "newdir".data)])) ∧
    dirname ("/newdir".data) = [] ∧
    (("/newdir".data : Str) == dirname ("/newdir".data)) = false := by
  refine ⟨by decide, by decide, by decide⟩

/-- C2 (amended): the Container-level gating predicates swallow lookup
failures and report false, and the facade-level can_mkdir and can_rename
always return a boolean; but the facade-level can_delete propagates the
lookup failure of fileinfo (see `C2_counterexample`). -/
theorem C2_gates_amended :
    (∀ (b : Backend) (c : Container) (leaf : Str) (er : Err),
       (containerGetName b c leaf).1 = Except.error er →
       (containerCanDelete b c leaf).1 = false) ∧
    (∀ (b : Backend) (c : Container) (sl : Str) (dl : Option Str) (er : Err),
       (containerGetName b c sl).1 = Except.error er → noopCase sl dl = false →
       (containerCanRename b c sl dl).1 = false) ∧
    (∀ (b : Backend) (fuel : Nat) (s : FSState) (dno : Option Str)
       (r : Except Err Bool) (s1 : FSState),
       fsCanMkdir b fuel s dno = some (r, s1) → exceptIsOk r = true) ∧
    (∀ (b : Backend) (fuel : Nat) (s : FSState) (srco dsto : Option Str)
       (r : Except Err Bool) (s1 : FSState),
       fsCanRename b fuel s srco dsto = some (r, s1) → exceptIsOk r = true) := by
  refine ⟨?_, ?_, ?_, ?_⟩
  · intro b c leaf er h
    cases hs : b.supports_delete with
    | false => simp [containerCanDelete, hs]
    | true =>
      cases hw : containerIsWriteable b c with
      | false => simp [containerCanDelete, hs, hw]
      | true =>
        cases hg : containerGetName b c leaf with
        | mk r c1 =>
          cases r with
          | error e0 => simp [containerCanDelete, hs, hw, hg]
          | ok ent => rw [hg] at h; simp at h
  · intro b c sl dl er h hno
    cases hs : b.supports_rename with
    | false => simp [containerCanRename, hs]
    | true =>
      cases hw : containerIsWriteable b c with
      | false => simp [containerCanRename, hs, hw]
      | true =>
        cases hg : containerGetName b c sl with
        | mk r c1 =>
          cases r with
          | error e0 => simp [containerCanRename, hs, hw, hno, hg]
          | ok ent => rw [hg] at h; simp at h
  · intro b fuel s dno r s1 h
    cases dno with
    | none =>
      simp [fsCanMkdir] at h
      rw [← h.1]
      rfl
    | some dn =>
      cases hs : b.supports_mkdir with
      | false =>
        simp [fsCanMkdir, hs] at h
        rw [← h.1]
        rfl
      | true =>
        cases hr : fsDir b fuel s dn with
        | none => simp [fsCanMkdir, hs, hr] at h
        | some pr =>
          simp [fsCanMkdir, hs, hr] at h
          rw [← h.1]
          rfl
  · intro b fuel s srco dsto r s1 h
    cases hs : b.supports_rename with
    | false =>
      simp [fsCanRename, hs] at h
      rw [← h.1]
      rfl
    | true =>
      cases srco with
      | none =>
        simp [fsCanRename, hs] at h
        rw [← h.1]
        rfl
      | some source =>
        cases hr1 : fsDir b fuel s (dirandleafname source).1 with
        | none => simp [fsCanRename, hs, hr1] at h
        | some pr1 =>
          cases dsto with
          | none =>
            simp [fsCanRename, hs, hr1] at h
            rw [← h.1]
            rfl
          | some dest =>
            cases hr2 : fsDir b fuel pr1.2 (dirandleafname dest).1 with
            | none => simp [fsCanRename, hs, hr1, hr2] at h
            | some pr2 =>
              by_cases heq : (dirandleafname source).1 = (dirandleafname dest).1
              · rw [show fsCanRename b fuel s (some source) (some dest) =
                      some (Except.ok (containerCanRename b pr1.1 (dirandleafname source).2
                              (some (dirandleafname dest).2)).1,
                            writeback pr2.2 (dirandleafname source).1
                              (containerCanRename b pr1.1 (dirandleafname source).2
                                (some (dirandleafname dest).2)).2) from by
                      simp only [fsCanRename, hs, Bool.not_true, Bool.false_eq_true,
                        if_false, hr1, hr2, if_pos heq]] at h
                simp only [Option.some.injEq, Prod.mk.injEq] at h
                rw [← h.1]
                rfl
              · simp [fsCanRename, hs, hr1, hr2, heq] at h
                rw [← h.1]
                rfl

/-- C2 counterexample: with delete supported, the facade-level
can_delete("/missing") does not return a boolean — the NotFound failure of
the internal fileinfo lookup propagates out of the predicate. -/
theorem C2_counterexample :
    (fsCanDelete wb 5 initW (some ("/missing".data))).map (fun p => p.1) =
      some (Except.error Err.NotFound) := by decide

/-- C2 witness: the amended statement at concrete inputs — a failed lookup
makes the container-level predicates answer false, and the facade-level
can_mkdir / can_rename answer a boolean. -/
theorem C2_witness :
    (containerCanDelete wb rootC ("missing".data)).1 = false ∧
    (containerCanRename wb rootC ("missing".data) (some ("zz".data))).1 = false ∧
    (fsCanMkdir wb 5 initW (some ("/A".data))).map (fun p => exceptIsOk p.1) = some true ∧
    (fsCanRename wb 6 initW (some ("/A/x".data)) (some ("/A/y".data))).map
        (fun p => exceptIsOk p.1) = some true := by
  refine ⟨C2_gates_amended.1 wb rootC ("missing".data) Err.NotFound (by decide),
         C2_gates_amended.2.1 wb rootC ("missing".data) (some ("zz".data))
           Err.NotFound (by decide) (by decide), ?_, ?_⟩
  · cases hm : fsCanMkdir wb 5 initW (some ("/A".data)) with
    | none => exact absurd hm (by decide)
    | some p =>
      have hr := C2_gates_amended.2.2.1 wb 5 initW (some ("/A".data)) p.1 p.2 (by rw [hm])
      simp [hr]
  · cases hm : fsCanRename wb 6 initW (some ("/A/x".data)) (some ("/A/y".data)) with
    | none => exact absurd hm (by decide)
    | some p =>
      have hr := C2_gates_amended.2.2.2 wb 6 initW (some ("/A/x".data))
        (some ("/A/y".data)) p.1 p.2 (by rw [hm])
      simp [hr]

/-- C3: evaluating Entry.delete on the plain file "/b.txt", whose virtual
can_delete answers true, shows the backend do_delete hook being invoked (it
is recorded in the delete log) and the operation then failing with
NotADirectory from `self.dir()`, with the directory cache left untouched —
the parent container's population cache is never invalidated. -/
theorem C3_delete_plain_file :
    ((entryDelete wb 5 initW (mkEntry wb ("/b.txt".data))).map
        (fun p => (p.1, p.2.deleteLog, p.2.cache)) =
      some (Except.error Err.NotADirectory, ["/b.txt".data], [])) ∧
    entryCanDelete wb (mkEntry wb ("/b.txt".data)) = true ∧
    (mkEntry wb ("/b.txt".data)).isdir = false := by
  refine ⟨by decide, by decide, by decide⟩

/-- C5: fileinfo("/b.txt") decomposes the path into dirname "" and leafname
"b.txt", resolves the containing directory and looks the leafname up there,
returning the entry for "/b.txt" whose size is 10 in the scenario backend. -/
theorem C5_fileinfo_scenario :
    ((fsFileinfo wb 5 initW ("/b.txt".data)).map (fun p => p.1) =
       some (Except.ok (mkEntry wb ("/b.txt".data)))) ∧
    entrySize (mkEntry wb ("/b.txt".data)) = 10 ∧
    dirandleafname ("/b.txt".data) = ([], "b.txt".data) := by
  refine ⟨by decide, by decide, by decide⟩

/-- C10: when the source and destination parent dirnames differ as raw
strings but agree after normalise_name (for example they differ only in
letter case), the facade can_rename answers false (its same-directory test
compares raw dirnames), while rename takes the within-directory branch and
delegates to the container-level rename instead of raising the
cross-directory error (its test compares normalised dirnames). -/
theorem C10_can_rename_rename_disagree (b : Backend) (fuel : Nat) (s : FSState)
    (source dest : Str)
    (hsup : b.supports_rename = true)
    (hraw : ¬ ((dirandleafname source).1 = (dirandleafname dest).1))
    (hnorm : normalise_name (dirandleafname source).1 =
             normalise_name (dirandleafname dest).1) :
    (∀ (r : Except Err Bool) (s1 : FSState),
       fsCanRename b fuel s (some source) (some dest) = some (r, s1) →
       r = Except.ok false) ∧
    (fsRename b fuel s source dest =
       (fsDir b fuel s (dirandleafname source).1).map (fun pr =>
         ((containerRename b pr.1 (dirandleafname source).2 (dirandleafname dest).2).1,
          { writeback pr.2 (dirandleafname source).1
              (containerRename b pr.1 (dirandleafname source).2
                (dirandleafname dest).2).2.1 with
            renameLog := (writeback pr.2 (dirandleafname source).1
                (containerRename b pr.1 (dirandleafname source).2
                  (dirandleafname dest).2).2.1).renameLog
              ++ (containerRename b pr.1 (dirandleafname source).2
                  (dirandleafname dest).2).2.2 }))) := by
  constructor
  · intro r s1 h
    cases hr1 : fsDir b fuel s (dirandleafname source).1 with
    | none => simp [fsCanRename, hsup, hr1] at h
    | some pr1 =>
      cases hr2 : fsDir b fuel pr1.2 (dirandleafname dest).1 with
      | none => simp [fsCanRename, hsup, hr1, hr2] at h
      | some pr2 =>
        simp [fsCanRename, hsup, hr1, hr2, hraw] at h
        exact h.1.symm
  · cases hr : fsDir b fuel s (dirandleafname source).1 with
    | none => simp [fsRename, hsup, hnorm, hr]
    | some pr => simp [fsRename, hsup, hnorm, hr]

/-- C10 witness: for source "/A/x" and destination "/a/y" (parent dirnames
differing only in case) on the concrete backend, can_rename answers false
while rename succeeds, performing the within-directory rename. -/
theorem C10_witness :
    ((fsCanRename wb 6 initW (some ("/A/x".data)) (some ("/a/y".data))).map
        (fun p => p.1) = some (Except.ok false)) ∧
    ((fsRename wb 6 initW ("/A/x".data) ("/a/y".data)).map (fun p => p.1) =
        some (Except.ok ())) := by
  constructor
  · cases hm : fsCanRename wb 6 initW (some ("/A/x".data)) (some ("/a/y".data)) with
    | none => exact absurd hm (by decide)
    | some p =>
      have hr := (C10_can_rename_rename_disagree wb 6 initW ("/A/x".data) ("/a/y".data)
        (by decide) (by decide) (by decide)).1 p.1 p.2 (by rw [hm])
      simp [hr]
  · decide

end Filer
